import Mathlib

/-!
Shallow embedding of the core simulation function `pindr` from
`src/diffhole.py` (Python 2 / numpy / scipy.fftpack), together with a
reference definition assembled from the specification's wording, and
theorems settling the frozen claims about the program.

Conventions of the embedding:
* numpy floating-point arrays over real coordinates are modelled with
  exact reals (`ℝ`) and complex numbers (`ℂ`);
* Python 2 integer division (`n / 2` with `n = npx + 1` an `int`) is
  modelled with natural-number division;
* the `for` loop accumulating the diffraction mask (`M = M + ...`) is
  modelled as a `List.foldl` over `List.range nholes`, applied pointwise
  (numpy array addition is pointwise);
* `scipy.fftpack.fft2` is the unnormalised forward transform
  `D1[p,q] = Σ_{a,b} field[a,b] · ω^(p·a+q·b)` with `ω = exp(-2πi/N)`;
* `scipy.fftpack.fftshift` is `np.roll` by `N / 2` (floor division) on
  each axis: `D2[i] = D1[(i - N/2) mod N]`;
* the output image is the `npx × npx` grid of magnitudes, indexed by
  `Fin npx × Fin npx` (and, as a list of rows, by `pindrArray`).
-/

namespace Diffhole

/-- Source line `x = I - n / 2` with `n = npx + 1` and `I = np.arange(1, n)`:
the x-coordinate of pixel column `a` (0-based), an exact integer because
Python 2 `/` on ints is floor division. -/
def gridX (npx : ℕ) (a : ℤ) : ℤ := a + 1 - ((npx + 1) / 2 : ℕ)

/-- Source line `y = n / 2 - I`: the y-coordinate of pixel row `b` (0-based). -/
def gridY (npx : ℕ) (b : ℤ) : ℤ := ((npx + 1) / 2 : ℕ) - (b + 1)

/-- Source line `lam = 2.0*np.pi/k`: the wavelength. -/
noncomputable def lam (k : ℝ) : ℝ := 2 * Real.pi / k

/-- Source line `t = i*2.0*np.pi/nholes`: angle of the i-th pinhole. -/
noncomputable def holeT (nholes : ℕ) (i : ℕ) : ℝ := i * (2 * Real.pi) / nholes

/-- Source line `xi = R*np.cos(t)`: x-position of the i-th pinhole. -/
noncomputable def holeX (nholes : ℕ) (R : ℝ) (i : ℕ) : ℝ := R * Real.cos (holeT nholes i)

/-- Source line `yi = R*np.sin(t)`: y-position of the i-th pinhole. -/
noncomputable def holeY (nholes : ℕ) (R : ℝ) (i : ℕ) : ℝ := R * Real.sin (holeT nholes i)

/-- Source line `ri = np.sqrt((X-xi)**2 + (Y-yi)**2 + d**2)` evaluated at
real coordinates `(x, y)`. -/
noncomputable def rdist (nholes : ℕ) (R d : ℝ) (i : ℕ) (x y : ℝ) : ℝ :=
  Real.sqrt ((x - holeX nholes R i) ^ 2 + (y - holeY nholes R i) ^ 2 + d ^ 2)

/-- Source expression `-1j/lam*np.exp(1j*k*ri)/ri`: the spherical-wavelet
contribution of the i-th pinhole at coordinates `(x, y)`. -/
noncomputable def wavelet (k : ℝ) (nholes : ℕ) (R d : ℝ) (i : ℕ) (x y : ℝ) : ℂ :=
  -Complex.I / (lam k : ℝ) * Complex.exp (Complex.I * (k : ℝ) * (rdist nholes R d i x y : ℝ))
    / (rdist nholes R d i x y : ℝ)

/-- The diffraction mask at real coordinates `(x, y)`: the loop
`M = np.zeros(...); for i in range(nholes): M = M + wavelet_i`. -/
noncomputable def maskC (k : ℝ) (nholes : ℕ) (R d : ℝ) (x y : ℝ) : ℂ :=
  List.foldl (fun M i => M + wavelet k nholes R d i x y) 0 (List.range nholes)

/-- The diffraction mask at grid entry `(a, b)` (column `a`, row `b`):
`M[a, b]` after the accumulation loop. -/
noncomputable def mask (k : ℝ) (npx nholes : ℕ) (R d : ℝ) (a b : ℤ) : ℂ :=
  maskC k nholes R d (gridX npx a) (gridY npx b)

/-- Source line `xy = np.exp(1j*(u*X+v*Y))`: the shift-phase factor. -/
noncomputable def shiftPhase (u v : ℝ) (npx : ℕ) (a b : ℤ) : ℂ :=
  Complex.exp (Complex.I * (u * ((gridX npx a : ℤ) : ℝ) + v * ((gridY npx b : ℤ) : ℝ)))

/-- The array `xy*M` that is handed to `fftpack.fft2`. -/
noncomputable def field (k u v : ℝ) (npx nholes : ℕ) (R d : ℝ) (a b : ℤ) : ℂ :=
  shiftPhase u v npx a b * mask k npx nholes R d a b

/-- The principal N-th root of unity `exp(-2πi/N)` used by the forward
discrete Fourier transform of `scipy.fftpack`. -/
noncomputable def omegaN (N : ℕ) : ℂ := Complex.exp (-(2 * Real.pi * Complex.I) / N)

/-- Source line `D1 = fftpack.fft2(xy*M)`: the unnormalised forward 2D DFT,
`D1[p,q] = Σ_{a,b < npx} field[a,b] · exp(-2πi(p·a+q·b)/npx)`.  The bin
indices are taken in `ℤ`; the formula is `npx`-periodic in each of them. -/
noncomputable def dft2 (k u v : ℝ) (npx nholes : ℕ) (R d : ℝ) (p q : ℤ) : ℂ :=
  ∑ a ∈ Finset.range npx, ∑ b ∈ Finset.range npx,
    field k u v npx nholes R d a b * omegaN npx ^ (p * a + q * b)

/-- Source line `D2 = fftpack.fftshift(D1)`: roll by `npx / 2` (floor
division) along each axis, `D2[i,j] = D1[(i - npx/2) mod npx, (j - npx/2) mod npx]`. -/
noncomputable def fftshift2 (k u v : ℝ) (npx nholes : ℕ) (R d : ℝ) (i j : ℤ) : ℂ :=
  dft2 k u v npx nholes R d ((i - ((npx / 2 : ℕ) : ℤ)) % npx) ((j - ((npx / 2 : ℕ) : ℤ)) % npx)

/-- Source function `pindr(k, u, v, npx, nholes, R, d)`: the returned
`npx × npx` grid `abs_image = np.abs(D2)` of intensity magnitudes. -/
noncomputable def pindr (k u v : ℝ) (npx nholes : ℕ) (R d : ℝ) :
    Fin npx → Fin npx → ℝ :=
  fun a b => Complex.abs (fftshift2 k u v npx nholes R d (a.val : ℤ) (b.val : ℤ))

/-- The output grid flattened to a list of rows, the shape-carrying view of
the numpy array returned by `pindr`. -/
noncomputable def pindrArray (k u v : ℝ) (npx nholes : ℕ) (R d : ℝ) : List (List ℝ) :=
  List.ofFn fun a : Fin npx => List.ofFn fun b : Fin npx => pindr k u v npx nholes R d a b

/-- Source line `def pindr(k=350, u=1.0, v=1.0, npx = 600, nholes=8, R=2.0, d=0.1)`:
the default argument tuple `(k, u, v, npx, nholes, R, d)`. -/
noncomputable def pindrDefaults : ℝ × ℝ × ℝ × ℕ × ℕ × ℝ × ℝ :=
  (350, 1.0, 1.0, 600, 8, 2.0, 0.1)

/-- The call `pindr(k, ...)` under Python run-time semantics: the scalar
float division `lam = 2.0*np.pi/k` raises `ZeroDivisionError` when `k = 0`
(every other division in the body acts on numpy arrays, which do not raise);
otherwise the call returns the grid. -/
noncomputable def pindrChecked (k u v : ℝ) (npx nholes : ℕ) (R d : ℝ) :
    Option (Fin npx → Fin npx → ℝ) :=
  open Classical in
  if k = 0 then none else some (pindr k u v npx nholes R d)

/-- An accumulation loop `acc = acc + f i` over `range n` is the sum of `f`. -/
theorem foldl_add_range_eq_sum (f : ℕ → ℂ) (n : ℕ) :
    List.foldl (fun M i => M + f i) 0 (List.range n) = ∑ i ∈ Finset.range n, f i := by
  induction n with
  | zero => simp
  | succ m ih =>
    rw [List.range_succ, List.foldl_append, ih, Finset.sum_range_succ]
    simp

/-- The accumulation loop is the coherent superposition sum. -/
theorem maskC_eq_sum (k : ℝ) (nholes : ℕ) (R d : ℝ) (x y : ℝ) :
    maskC k nholes R d x y = ∑ i ∈ Finset.range nholes, wavelet k nholes R d i x y :=
  foldl_add_range_eq_sum (fun i => wavelet k nholes R d i x y) nholes

/-- Grid rows are the negated columns: `y = n / 2 - I = -(I - n / 2)`. -/
theorem gridY_eq_neg_gridX (npx : ℕ) (a : ℤ) : gridY npx a = -gridX npx a := by
  unfold gridX gridY; ring

/-- C2, counterexample.  At `npx = 2` the claimed real-division formula fails:
pixel index `i = 1` (0-based column 0) has code x-coordinate
`1 - (2+1)/2 = 1 - 1 = 0` under Python 2 floor division, while the claim's
`i - (npx+1)/2 = 1 - 3/2 = -1/2` differs. -/
theorem gridX_ne_claimed_at_two :
    ¬ (((gridX 2 0 : ℤ) : ℝ) = (1 : ℝ) - (2 + 1) / 2
        ∧ ((gridY 2 0 : ℤ) : ℝ) = (2 + 1) / 2 - 1) := by
  intro h
  have hx : ((gridX 2 0 : ℤ) : ℝ) = 0 := by norm_num [gridX]
  rw [hx] at h
  have := h.1
  norm_num at this

/-- C2, amended.  The grid built by `pindr` assigns to pixel index
`i = a + 1` (for `a : Fin npx`) the x-coordinate `i - ⌊(npx+1)/2⌋` and the
y-coordinate `⌊(npx+1)/2⌋ - i`, with floor (Python 2 integer) division;
y is always the negated x-offset, and for odd `npx` the offsets are
symmetric around the grid center (`x` at the reflected column is `-x`). -/
theorem gridX_floor_formula (npx : ℕ) (a : Fin npx) :
    gridX npx a.val = (a.val + 1 : ℤ) - ((npx + 1) / 2 : ℕ)
      ∧ gridY npx a.val = -gridX npx a.val
      ∧ (npx % 2 = 1 → gridX npx ((npx : ℤ) - 1 - a.val) = -gridX npx a.val) := by
  refine ⟨rfl, gridY_eq_neg_gridX npx a.val, ?_⟩
  intro hodd
  have h2 : ((npx + 1) / 2 : ℕ) * 2 = npx + 1 := by omega
  unfold gridX
  have hc : (((npx + 1) / 2 : ℕ) : ℤ) * 2 = (npx : ℤ) + 1 := by exact_mod_cast h2
  linarith

/-- C2 amended, witness. -/
theorem gridX_floor_formula_witness :
    gridX 1 ((0 : Fin 1) : ℕ) = (((0 : Fin 1) : ℕ) + 1 : ℤ) - ((1 + 1) / 2 : ℕ)
      ∧ gridY 1 ((0 : Fin 1) : ℕ) = -gridX 1 ((0 : Fin 1) : ℕ)
      ∧ gridX 1 ((1 : ℤ) - 1 - ((0 : Fin 1) : ℕ)) = -gridX 1 ((0 : Fin 1) : ℕ) :=
  ⟨(gridX_floor_formula 1 0).1, (gridX_floor_formula 1 0).2.1,
    (gridX_floor_formula 1 0).2.2 (by decide)⟩

/-- C3, counterexample.  The default parameter tuple of `pindr` is not the
claimed `(350, 0, 0, 600, 8, 2.0, 0.1)`: the source defaults are
`u = 1.0, v = 1.0`, not `u = 0, v = 0`. -/
theorem pindrDefaults_ne_claimed :
    pindrDefaults ≠ ((350 : ℝ), (0 : ℝ), (0 : ℝ), (600 : ℕ), (8 : ℕ), (2 : ℝ), (0.1 : ℝ)) := by
  unfold pindrDefaults
  intro h
  have hu : (1.0 : ℝ) = 0 := congrArg (fun t => t.2.1) h
  norm_num at hu

/-- C3, amended.  The default parameter values of `pindr` are
`k = 350, u = 1.0, v = 1.0, npx = 600, nholes = 8, R = 2.0, d = 0.1`. -/
theorem pindrDefaults_eq :
    pindrDefaults = ((350 : ℝ), (1.0 : ℝ), (1.0 : ℝ), (600 : ℕ), (8 : ℕ), (2.0 : ℝ), (0.1 : ℝ)) :=
  rfl

/-- C6.  Every entry of the grid returned by `pindr` is non-negative, being
the magnitude of a complex number. -/
theorem pindr_nonneg (k u v : ℝ) (npx nholes : ℕ) (R d : ℝ) (a b : Fin npx) :
    0 ≤ pindr k u v npx nholes R d a b :=
  Complex.abs.nonneg _

/-- C9.  With `nholes = 0` the source-accumulation loop runs zero times, the
mask stays identically zero, and the returned grid is identically zero. -/
theorem pindr_zero_holes (k u v : ℝ) (npx : ℕ) (R d : ℝ) (a b : Fin npx) :
    pindr k u v npx 0 R d a b = 0 := by
  have hmask : ∀ x y : ℤ, mask k npx 0 R d x y = 0 := by
    intro x y
    unfold mask maskC
    simp
  unfold pindr fftshift2 dft2 field
  simp [hmask]

/-- Advancing either shift parameter by `2π` leaves the shift phase
unchanged, because the grid coordinates are exact integers. -/
theorem shiftPhase_period (u v : ℝ) (npx : ℕ) (a b : ℤ) :
    shiftPhase (u + 2 * Real.pi) v npx a b = shiftPhase u v npx a b
      ∧ shiftPhase u (v + 2 * Real.pi) npx a b = shiftPhase u v npx a b := by
  unfold shiftPhase
  constructor
  · rw [show Complex.I * (((u + 2 * Real.pi : ℝ) : ℂ) * ((gridX npx a : ℤ) : ℝ)
          + (v : ℝ) * ((gridY npx b : ℤ) : ℝ))
        = Complex.I * ((u : ℝ) * ((gridX npx a : ℤ) : ℝ) + (v : ℝ) * ((gridY npx b : ℤ) : ℝ))
          + (gridX npx a : ℤ) * (2 * (Real.pi : ℂ) * Complex.I) by push_cast; ring]
    rw [Complex.exp_add, Complex.exp_int_mul_two_pi_mul_I, mul_one]
  · rw [show Complex.I * ((u : ℝ) * ((gridX npx a : ℤ) : ℝ)
          + ((v + 2 * Real.pi : ℝ) : ℂ) * ((gridY npx b : ℤ) : ℝ))
        = Complex.I * ((u : ℝ) * ((gridX npx a : ℤ) : ℝ) + (v : ℝ) * ((gridY npx b : ℤ) : ℝ))
          + (gridY npx b : ℤ) * (2 * (Real.pi : ℂ) * Complex.I) by push_cast; ring]
    rw [Complex.exp_add, Complex.exp_int_mul_two_pi_mul_I, mul_one]

/-- C10.  The output of `pindr` is `2π`-periodic in each shift parameter:
the grid coordinates `X` and `Y` are integers, so the shift phase
`exp(i(uX + vY))` is unchanged by `u ↦ u + 2π` or `v ↦ v + 2π`. -/
theorem pindr_shift_period (k u v : ℝ) (npx nholes : ℕ) (R d : ℝ) :
    pindr k (u + 2 * Real.pi) v npx nholes R d = pindr k u v npx nholes R d
      ∧ pindr k u (v + 2 * Real.pi) npx nholes R d = pindr k u v npx nholes R d := by
  have hfield : ∀ a b : ℤ,
      field k (u + 2 * Real.pi) v npx nholes R d a b = field k u v npx nholes R d a b
        ∧ field k u (v + 2 * Real.pi) npx nholes R d a b = field k u v npx nholes R d a b := by
    intro a b
    unfold field
    rw [(shiftPhase_period u v npx a b).1, (shiftPhase_period u v npx a b).2]
    exact ⟨rfl, rfl⟩
  constructor <;>
  · funext a b
    unfold pindr fftshift2 dft2
    congr 1
    refine Finset.sum_congr rfl fun x _ => Finset.sum_congr rfl fun y _ => ?_
    simp only [(hfield x y).1, (hfield x y).2]

/-- C7.  `pindr` is a deterministic pure function of its parameter tuple:
equal parameters give equal output grids (the embedding is stateless, so no
outside state is read or modified). -/
theorem pindr_deterministic (k u v : ℝ) (npx nholes : ℕ) (R d : ℝ)
    (k' u' v' : ℝ) (npx' nholes' : ℕ) (R' d' : ℝ)
    (hk : k = k') (hu : u = u') (hv : v = v') (hnpx : npx = npx')
    (hnh : nholes = nholes') (hR : R = R') (hd : d = d') :
    pindrArray k u v npx nholes R d = pindrArray k' u' v' npx' nholes' R' d' := by
  subst hk hu hv hnpx hnh hR hd
  rfl

/-- C7, witness. -/
theorem pindr_deterministic_witness :
    pindrArray 350 0 0 600 8 2 0.1 = pindrArray 350 0 0 600 8 2 0.1 :=
  pindr_deterministic 350 0 0 600 8 2 0.1 350 0 0 600 8 2 0.1
    rfl rfl rfl rfl rfl rfl rfl

/-- C5.  For every `npx` (and any other parameters) the grid returned by
`pindr` has `npx` rows, each of length `npx`. -/
theorem pindrArray_shape (k u v : ℝ) (npx nholes : ℕ) (R d : ℝ) :
    (pindrArray k u v npx nholes R d).length = npx
      ∧ ∀ row ∈ pindrArray k u v npx nholes R d, row.length = npx := by
  constructor
  · simp [pindrArray]
  · intro row hrow
    unfold pindrArray at hrow
    obtain ⟨a, ha⟩ := Set.mem_range.mp ((List.mem_ofFn _ _).mp hrow)
    rw [← ha]
    simp

/-- C5, witness. -/
theorem pindrArray_shape_witness :
    (pindrArray 350 0 0 1 8 2 0.1).length = 1
      ∧ [pindr 350 0 0 1 8 2 0.1 0 0].length = 1 := by
  constructor
  · exact (pindrArray_shape 350 0 0 1 8 2 0.1).1
  · refine (pindrArray_shape 350 0 0 1 8 2 0.1).2 _ ?_
    unfold pindrArray
    rw [show (List.ofFn fun a : Fin 1 => List.ofFn fun b : Fin 1 => pindr 350 0 0 1 8 2 0.1 a b)
        = [[pindr 350 0 0 1 8 2 0.1 0 0]] by simp [List.ofFn_succ]]
    exact List.mem_singleton.mpr rfl

/-- C8, counterexample.  At `k = 0` (a finite numeric input with
`npx ≥ 1`, `nholes ≥ 1`) the call raises `ZeroDivisionError` in
`lam = 2.0*np.pi/k` instead of returning a grid, so the claim that no
error is raised and degenerate values propagate as Inf/NaN fails. -/
theorem pindrChecked_zero_wavenumber :
    pindrChecked 0 0 0 1 1 1 1 = none := by
  simp [pindrChecked]

/-- C8, amended.  For every finite numeric input with `k ≠ 0` (and any
`npx`, `nholes`), `pindr` raises no error and returns the grid; `k = 0`
raises `ZeroDivisionError` at the scalar wavelength division, while other
degenerate values (such as `d = 0`) occur in numpy array arithmetic and
propagate as floating-point Inf/NaN without raising. -/
theorem pindrChecked_eq_some (k u v : ℝ) (npx nholes : ℕ) (R d : ℝ) (hk : k ≠ 0) :
    pindrChecked k u v npx nholes R d = some (pindr k u v npx nholes R d) := by
  simp [pindrChecked, hk]

/-- C8, witness. -/
theorem pindrChecked_eq_some_witness :
    pindrChecked 1 0 0 1 1 1 1 = some (pindr 1 0 0 1 1 1 1) :=
  pindrChecked_eq_some 1 0 0 1 1 1 1 (by norm_num)

/-- Reference mask, modelled from the specification's wording: with
wavelength `λ = 2π/k`, accumulate over sources `i = 0 .. nholes-1` at angle
`i·2π/nholes` and position `(R·cos t, R·sin t)` the Fresnel–Kirchhoff kernel
`(-i/λ)·exp(i·k·r)/r` with `r = sqrt((X-xᵢ)² + (Y-yᵢ)² + d²)`, summing
coherently. -/
noncomputable def refMask (k : ℝ) (npx nholes : ℕ) (R d : ℝ) (a b : ℤ) : ℂ :=
  ∑ i ∈ Finset.range nholes,
    -Complex.I / ((2 * Real.pi / k : ℝ) : ℂ)
      * Complex.exp (Complex.I * (k : ℝ)
        * (Real.sqrt ((((gridX npx a : ℤ) : ℝ) - R * Real.cos (i * (2 * Real.pi) / nholes)) ^ 2
            + (((gridY npx b : ℤ) : ℝ) - R * Real.sin (i * (2 * Real.pi) / nholes)) ^ 2
            + d ^ 2) : ℝ))
      / (Real.sqrt ((((gridX npx a : ℤ) : ℝ) - R * Real.cos (i * (2 * Real.pi) / nholes)) ^ 2
            + (((gridY npx b : ℤ) : ℝ) - R * Real.sin (i * (2 * Real.pi) / nholes)) ^ 2
            + d ^ 2) : ℝ)

/-- Reference field: the mask multiplied elementwise by the shift phase
`exp(i·(u·X + v·Y))`, as the specification words it. -/
noncomputable def refField (k u v : ℝ) (npx nholes : ℕ) (R d : ℝ) (a b : ℤ) : ℂ :=
  refMask k npx nholes R d a b
    * Complex.exp (Complex.I * (u * ((gridX npx a : ℤ) : ℝ) + v * ((gridY npx b : ℤ) : ℝ)))

/-- Reference 2D discrete Fourier transform of the reference field. -/
noncomputable def refDft (k u v : ℝ) (npx nholes : ℕ) (R d : ℝ) (p q : ℤ) : ℂ :=
  ∑ a ∈ Finset.range npx, ∑ b ∈ Finset.range npx,
    refField k u v npx nholes R d a b
      * Complex.exp (-(2 * Real.pi * Complex.I) * ((p * a + q * b : ℤ) : ℂ) / npx)

/-- Reference FFT-shift: each frequency bin `p` is relocated to position
`(p + N/2) mod N` along each axis, so the output at position `(i, j)` reads
bin `((i - N/2) mod N, (j - N/2) mod N)`. -/
noncomputable def refShift (k u v : ℝ) (npx nholes : ℕ) (R d : ℝ) (i j : ℤ) : ℂ :=
  refDft k u v npx nholes R d ((i - ((npx / 2 : ℕ) : ℤ)) % npx) ((j - ((npx / 2 : ℕ) : ℤ)) % npx)

/-- The reference shift indeed places bin `(p, q)` at position
`((p + N/2) mod N, (q + N/2) mod N)`, for in-range bins. -/
theorem refShift_relocates (k u v : ℝ) (npx nholes : ℕ) (R d : ℝ) (p q : ℤ)
    (hp : 0 ≤ p ∧ p < npx) (hq : 0 ≤ q ∧ q < npx) :
    refShift k u v npx nholes R d
        ((p + ((npx / 2 : ℕ) : ℤ)) % npx) ((q + ((npx / 2 : ℕ) : ℤ)) % npx)
      = refDft k u v npx nholes R d p q := by
  unfold refShift
  have key : ∀ x : ℤ, 0 ≤ x → x < npx →
      ((x + ((npx / 2 : ℕ) : ℤ)) % npx - ((npx / 2 : ℕ) : ℤ)) % npx = x := by
    intro x hx0 hxn
    have h1 : ((x + ((npx / 2 : ℕ) : ℤ)) % npx - ((npx / 2 : ℕ) : ℤ)) % npx
        = ((x + ((npx / 2 : ℕ) : ℤ)) - ((npx / 2 : ℕ) : ℤ)) % npx := by
      conv_lhs => rw [Int.sub_emod, Int.emod_emod_of_dvd _ dvd_rfl, ← Int.sub_emod]
    rw [h1]
    simp only [add_sub_cancel_right]
    exact Int.emod_eq_of_lt hx0 hxn
  rw [key p hp.1 hp.2, key q hq.1 hq.2]

/-- Reference intensity image assembled from the specification: the
elementwise magnitude of the shifted transform. -/
noncomputable def pindrRef (k u v : ℝ) (npx nholes : ℕ) (R d : ℝ) :
    Fin npx → Fin npx → ℝ :=
  fun a b => Complex.abs (refShift k u v npx nholes R d (a.val : ℤ) (b.val : ℤ))

/-- A power of the DFT root of unity is the corresponding exponential. -/
theorem omegaN_zpow (N : ℕ) (m : ℤ) :
    omegaN N ^ m = Complex.exp (-(2 * Real.pi * Complex.I) * (m : ℂ) / N) := by
  unfold omegaN
  rw [← Complex.exp_int_mul]
  congr 1
  ring

/-- The code mask equals the reference mask. -/
theorem mask_eq_refMask (k : ℝ) (npx nholes : ℕ) (R d : ℝ) (a b : ℤ) :
    mask k npx nholes R d a b = refMask k npx nholes R d a b := by
  unfold mask refMask
  rw [maskC_eq_sum]
  refine Finset.sum_congr rfl fun i _ => ?_
  unfold wavelet rdist holeX holeY holeT lam
  rfl

/-- C1.  For every valid input, the output of `pindr` equals the reference
definition assembled from the specification: coherent superposition of the
Fresnel–Kirchhoff kernels over the pinholes, elementwise shift phase, 2D
discrete Fourier transform, FFT-shift relocating bin `p` to
`(p + N/2) mod N` on each axis, and elementwise magnitude. -/
theorem pindr_refines_spec (k u v R d : ℝ) (npx nholes : ℕ)
    (_hk : 0 < k) (_hnpx : 1 ≤ npx) (_hnh : 1 ≤ nholes) (_hR : 0 ≤ R) (a b : Fin npx) :
    pindr k u v npx nholes R d a b = pindrRef k u v npx nholes R d a b := by
  unfold pindr pindrRef fftshift2 refShift
  congr 1
  unfold dft2 refDft
  refine Finset.sum_congr rfl fun x _ => Finset.sum_congr rfl fun y _ => ?_
  rw [omegaN_zpow]
  unfold field refField shiftPhase
  rw [mask_eq_refMask]
  push_cast
  ring

/-- C1, witness. -/
theorem pindr_refines_spec_witness :
    pindr 1 0 0 1 1 0 1 0 0 = pindrRef 1 0 0 1 1 0 1 0 0 :=
  pindr_refines_spec 1 0 0 0 1 1 1 (by norm_num) (by norm_num) (by norm_num) (by norm_num) 0 0

/-- Shifting the argument of an `n`-periodic summand by one step does not
change its sum over a window of length `n`. -/
theorem sum_range_succ_shift {M : Type*} [AddCommMonoid M] (f : ℕ → M) (n : ℕ)
    (hf : ∀ i, f (i + n) = f i) :
    ∑ i ∈ Finset.range n, f (i + 1) = ∑ i ∈ Finset.range n, f i := by
  rcases Nat.eq_zero_or_pos n with h0 | hpos
  · subst h0; simp
  · obtain ⟨m, rfl⟩ := Nat.exists_eq_succ_of_ne_zero (Nat.pos_iff_ne_zero.mp hpos)
    rw [Finset.sum_range_succ, Finset.sum_range_succ']
    have hm : f (m + 1) = f 0 := by
      have := hf 0
      simpa using this
    rw [hm, add_comm]

/-- Shifting the argument of an `n`-periodic summand by any amount does not
change its sum over a window of length `n`. -/
theorem sum_range_shift {M : Type*} [AddCommMonoid M] (f : ℕ → M) (n : ℕ)
    (hf : ∀ i, f (i + n) = f i) (h : ℕ) :
    ∑ i ∈ Finset.range n, f (i + h) = ∑ i ∈ Finset.range n, f i := by
  induction h with
  | zero => simp
  | succ m ih =>
    have step : ∑ i ∈ Finset.range n, f (i + (m + 1))
        = ∑ i ∈ Finset.range n, f (i + m) := by
      have hper : ∀ i, (fun j => f (j + m)) (i + n) = (fun j => f (j + m)) i := by
        intro i
        simp only []
        rw [show i + n + m = (i + m) + n by omega, hf]
      have := sum_range_succ_shift (fun j => f (j + m)) n hper
      simp only [] at this
      calc ∑ i ∈ Finset.range n, f (i + (m + 1))
          = ∑ i ∈ Finset.range n, f ((i + 1) + m) := by
            refine Finset.sum_congr rfl fun i _ => ?_
            rw [show i + (m + 1) = (i + 1) + m by omega]
        _ = ∑ i ∈ Finset.range n, f (i + m) := this
    rw [step, ih]

/-- Reflecting the argument of an `n`-periodic summand about any offset does
not change its sum over a window of length `n`. -/
theorem sum_range_reflect_periodic {M : Type*} [AddCommMonoid M] (f : ℕ → M) (n : ℕ)
    (hf : ∀ i, f (i + n) = f i) (h : ℕ) :
    ∑ i ∈ Finset.range n, f (h + n - i) = ∑ i ∈ Finset.range n, f i := by
  have h1 : ∑ i ∈ Finset.range n, f (h + n - i)
      = ∑ i ∈ Finset.range n, f (i + (h + 1)) := by
    have := Finset.sum_range_reflect (fun j => f (h + n - j)) n
    rw [← this]
    refine Finset.sum_congr rfl fun i hi => ?_
    have hi' : i < n := Finset.mem_range.mp hi
    rw [show h + n - (n - 1 - i) = i + (h + 1) by omega]
  rw [h1, sum_range_shift f n hf (h + 1)]

/-- The wavelet contribution is periodic in the source index with period
`nholes` (the pinhole angles wrap around the circle). -/
theorem wavelet_periodic (k : ℝ) (nholes : ℕ) (R d x y : ℝ) (j : ℕ) :
    wavelet k nholes R d (j + nholes) x y = wavelet k nholes R d j x y := by
  rcases Nat.eq_zero_or_pos nholes with h0 | hpos
  · subst h0; rfl
  · have hn : (nholes : ℝ) ≠ 0 := Nat.cast_ne_zero.mpr (Nat.pos_iff_ne_zero.mp hpos)
    have ht : holeT nholes (j + nholes) = holeT nholes j + 2 * Real.pi := by
      unfold holeT
      push_cast
      field_simp
      ring
    unfold wavelet rdist holeX holeY
    rw [ht, Real.cos_add_two_pi, Real.sin_add_two_pi]

/-- Mirror symmetry of the mask in the y-coordinate, valid for every number
of pinholes: the pinhole arrangement is invariant under `y ↦ -y`
(index `i ↦ nholes - i`). -/
theorem maskC_y_mirror (k : ℝ) (nholes : ℕ) (R d x y : ℝ) :
    maskC k nholes R d x (-y) = maskC k nholes R d x y := by
  rw [maskC_eq_sum, maskC_eq_sum]
  have hterm : ∀ i ∈ Finset.range nholes,
      wavelet k nholes R d i x (-y)
        = (fun j => wavelet k nholes R d j x y) (0 + nholes - i) := by
    intro i hi
    have hi' : i < nholes := Finset.mem_range.mp hi
    have hn : (nholes : ℝ) ≠ 0 := Nat.cast_ne_zero.mpr (by omega)
    have ht : holeT nholes (0 + nholes - i) = 2 * Real.pi - holeT nholes i := by
      unfold holeT
      rw [Nat.zero_add, Nat.cast_sub (le_of_lt hi')]
      field_simp
      ring
    simp only []
    unfold wavelet rdist holeX holeY
    rw [ht, Real.cos_two_pi_sub, Real.sin_two_pi_sub]
    have hsq : (x - R * Real.cos (holeT nholes i)) ^ 2
          + (-y - R * Real.sin (holeT nholes i)) ^ 2 + d ^ 2
        = (x - R * Real.cos (holeT nholes i)) ^ 2
          + (y - R * -Real.sin (holeT nholes i)) ^ 2 + d ^ 2 := by ring
    rw [hsq]
  rw [Finset.sum_congr rfl hterm,
    sum_range_reflect_periodic (fun j => wavelet k nholes R d j x y) nholes
      (fun i => wavelet_periodic k nholes R d x y i) 0]

/-- Mirror symmetry of the mask in the x-coordinate for an even number of
pinholes: the arrangement is invariant under `x ↦ -x`
(index `i ↦ nholes/2 + nholes - i`). -/
theorem maskC_x_mirror (k : ℝ) (nholes : ℕ) (R d x y : ℝ) (hev : Even nholes) :
    maskC k nholes R d (-x) y = maskC k nholes R d x y := by
  rw [maskC_eq_sum, maskC_eq_sum]
  have hterm : ∀ i ∈ Finset.range nholes,
      wavelet k nholes R d i (-x) y
        = (fun j => wavelet k nholes R d j x y) (nholes / 2 + nholes - i) := by
    intro i hi
    have hi' : i < nholes := Finset.mem_range.mp hi
    have hn : (nholes : ℝ) ≠ 0 := Nat.cast_ne_zero.mpr (by omega)
    have h2 : (nholes / 2 : ℕ) * 2 = nholes := by
      obtain ⟨m, hm⟩ := hev
      omega
    have ht : holeT nholes (nholes / 2 + nholes - i)
        = Real.pi + (2 * Real.pi - holeT nholes i) := by
      unfold holeT
      have hhalf : ((nholes / 2 : ℕ) : ℝ) = (nholes : ℝ) / 2 := by
        have hc : ((nholes / 2 : ℕ) : ℝ) * 2 = (nholes : ℝ) := by exact_mod_cast h2
        linarith
      rw [Nat.cast_sub (by omega)]
      push_cast
      rw [hhalf]
      field_simp
      ring
    simp only []
    unfold wavelet rdist holeX holeY
    rw [ht]
    rw [show Real.pi + (2 * Real.pi - holeT nholes i)
        = (Real.pi - holeT nholes i) + 2 * Real.pi by ring,
      Real.cos_add_two_pi, Real.sin_add_two_pi, Real.cos_pi_sub, Real.sin_pi_sub]
    have hsq : (-x - R * Real.cos (holeT nholes i)) ^ 2
          + (y - R * Real.sin (holeT nholes i)) ^ 2 + d ^ 2
        = (x - R * -Real.cos (holeT nholes i)) ^ 2
          + (y - R * Real.sin (holeT nholes i)) ^ 2 + d ^ 2 := by ring
    rw [hsq]
  rw [Finset.sum_congr rfl hterm,
    sum_range_reflect_periodic (fun j => wavelet k nholes R d j x y) nholes
      (fun i => wavelet_periodic k nholes R d x y i) (nholes / 2)]

/-- The cyclic index reflection pairing grid column `a` with the column of
the negated x-coordinate (fixing the unpaired boundary column of an even
grid). -/
def bfun (N a : ℕ) : ℕ := (2 * ((N + 1) / 2) + N - 2 - a) % N

theorem bfun_lt (N a : ℕ) (hN : 0 < N) : bfun N a < N := Nat.mod_lt _ hN

theorem bfun_eq_of_le (N a : ℕ) (h : a + 2 ≤ 2 * ((N + 1) / 2)) (ha : a < N) :
    bfun N a = 2 * ((N + 1) / 2) - 2 - a := by
  unfold bfun
  rw [show 2 * ((N + 1) / 2) + N - 2 - a = N + (2 * ((N + 1) / 2) - 2 - a) by omega,
    Nat.add_mod_left]
  exact Nat.mod_eq_of_lt (by omega)

theorem bfun_eq_self (N a : ℕ) (h : 2 * ((N + 1) / 2) < a + 2) (ha : a < N) :
    bfun N a = a := by
  unfold bfun
  rw [show 2 * ((N + 1) / 2) + N - 2 - a = a by omega]
  exact Nat.mod_eq_of_lt ha

theorem bfun_invol (N a : ℕ) (ha : a < N) : bfun N (bfun N a) = a := by
  rcases le_or_lt (a + 2) (2 * ((N + 1) / 2)) with h | h
  · rw [bfun_eq_of_le N a h ha, bfun_eq_of_le N _ (by omega) (by omega)]
    omega
  · rw [bfun_eq_self N a h ha]
    exact bfun_eq_self N a h ha

/-- Modulo `N`, the reflected index is `2·⌊(N+1)/2⌋ - 2 - a`. -/
theorem bfun_int_congr (N a : ℕ) (ha : a < N) :
    (N : ℤ) ∣ ((bfun N a : ℕ) : ℤ) - (2 * (((N + 1) / 2 : ℕ) : ℤ) - 2 - a) := by
  have hval : ((2 * ((N + 1) / 2) + N - 2 - a : ℕ) : ℤ)
      = 2 * (((N + 1) / 2 : ℕ) : ℤ) + N - 2 - a := by omega
  have hcast : ((bfun N a : ℕ) : ℤ)
      = (2 * (((N + 1) / 2 : ℕ) : ℤ) + N - 2 - a) % (N : ℤ) := by
    unfold bfun
    rw [← hval]
    exact Int.natCast_mod _ N
  rw [hcast]
  have h1 : (2 * (((N + 1) / 2 : ℕ) : ℤ) + N - 2 - a) % (N : ℤ)
      ≡ 2 * (((N + 1) / 2 : ℕ) : ℤ) + N - 2 - a [ZMOD (N : ℤ)] :=
    Int.emod_emod_of_dvd _ dvd_rfl
  have h2 : (2 * (((N + 1) / 2 : ℕ) : ℤ) + N - 2 - a)
      ≡ 2 * (((N + 1) / 2 : ℕ) : ℤ) - 2 - a [ZMOD (N : ℤ)] := by
    rw [Int.modEq_iff_dvd]
    exact ⟨-1, by ring⟩
  exact Int.ModEq.dvd (h1.trans h2).symm

/-- The x-coordinate at the reflected column is the negated coordinate, or
the column is the self-paired boundary column. -/
theorem gridX_bfun (N a : ℕ) (ha : a < N) :
    ((gridX N ((bfun N a : ℕ) : ℤ) : ℤ)) = -(gridX N (a : ℤ))
      ∨ ((gridX N ((bfun N a : ℕ) : ℤ) : ℤ)) = gridX N (a : ℤ) := by
  rcases le_or_lt (a + 2) (2 * ((N + 1) / 2)) with h | h
  · left
    rw [bfun_eq_of_le N a h ha]
    unfold gridX
    omega
  · right
    rw [bfun_eq_self N a h ha]

/-- The root of unity used by the DFT is nonzero. -/
theorem omegaN_ne_zero (N : ℕ) : omegaN N ≠ 0 := Complex.exp_ne_zero _

/-- The DFT root of unity has order dividing `N`. -/
theorem omegaN_pow_N (N : ℕ) : omegaN N ^ (N : ℤ) = 1 := by
  rcases Nat.eq_zero_or_pos N with h0 | hpos
  · subst h0
    simp
  · have hn : (N : ℂ) ≠ 0 := Nat.cast_ne_zero.mpr (by omega)
    unfold omegaN
    rw [← Complex.exp_int_mul]
    rw [show ((N : ℤ) : ℂ) * (-(2 * Real.pi * Complex.I) / N)
        = ((-1 : ℤ) : ℂ) * (2 * (Real.pi : ℂ) * Complex.I) by
      push_cast
      field_simp
      ring]
    exact Complex.exp_int_mul_two_pi_mul_I (-1)

/-- Powers of the DFT root of unity depend on the exponent only modulo `N`. -/
theorem omegaN_zpow_congr (N : ℕ) (m m' : ℤ) (h : (N : ℤ) ∣ m - m') :
    omegaN N ^ m = omegaN N ^ m' := by
  obtain ⟨t, ht⟩ := h
  have hm : m = m' + (N : ℤ) * t := by linarith
  rw [hm, zpow_add₀ (omegaN_ne_zero N), zpow_mul, omegaN_pow_N, one_zpow, mul_one]

/-- Every power of the DFT root of unity lies on the unit circle. -/
theorem abs_omegaN_zpow (N : ℕ) (m : ℤ) : Complex.abs (omegaN N ^ m) = 1 := by
  rw [map_zpow₀]
  unfold omegaN
  rw [show -(2 * (Real.pi : ℂ) * Complex.I) / N
      = ((-(2 * Real.pi) / N : ℝ) : ℂ) * Complex.I by push_cast; ring]
  rw [Complex.abs_exp_ofReal_mul_I, one_zpow]

/-- The 2D DFT depends on its frequency bin indices only modulo `N`. -/
theorem dft2_congr (k u v : ℝ) (npx nholes : ℕ) (R d : ℝ) (p p' q q' : ℤ)
    (hp : (npx : ℤ) ∣ p - p') (hq : (npx : ℤ) ∣ q - q') :
    dft2 k u v npx nholes R d p q = dft2 k u v npx nholes R d p' q' := by
  unfold dft2
  refine Finset.sum_congr rfl fun a _ => Finset.sum_congr rfl fun b _ => ?_
  congr 1
  apply omegaN_zpow_congr
  rw [show p * a + q * b - (p' * a + q' * b) = (p - p') * a + (q - q') * b by ring]
  exact dvd_add (hp.mul_right _) (hq.mul_right _)

/-- With zero shift the transformed array is just the mask. -/
theorem field_zero_shift (k : ℝ) (npx nholes : ℕ) (R d : ℝ) (a b : ℤ) :
    field k 0 0 npx nholes R d a b = mask k npx nholes R d a b := by
  unfold field shiftPhase
  simp

/-- The mask grid is invariant under the cyclic index reflection on both
axes, for an even number of pinholes. -/
theorem mask_bfun (k : ℝ) (npx nholes : ℕ) (R d : ℝ) (hev : Even nholes)
    (a b : ℕ) (ha : a < npx) (hb : b < npx) :
    mask k npx nholes R d ((bfun npx a : ℕ) : ℤ) ((bfun npx b : ℕ) : ℤ)
      = mask k npx nholes R d (a : ℤ) (b : ℤ) := by
  unfold mask
  rw [gridY_eq_neg_gridX npx ((bfun npx b : ℕ) : ℤ), gridY_eq_neg_gridX npx (b : ℤ)]
  rcases gridX_bfun npx a ha with hxa | hxa
  · rcases gridX_bfun npx b hb with hxb | hxb
    · rw [hxa, hxb]
      push_cast
      rw [neg_neg, maskC_x_mirror k nholes R d _ _ hev, maskC_y_mirror]
    · rw [hxa, hxb]
      push_cast
      rw [maskC_x_mirror k nholes R d _ _ hev]
  · rcases gridX_bfun npx b hb with hxb | hxb
    · rw [hxa, hxb]
      push_cast
      rw [neg_neg, maskC_y_mirror]
    · rw [hxa, hxb]

/-- Reindexing a sum over `range N` along the cyclic reflection. -/
theorem sum_range_bfun {M : Type*} [AddCommMonoid M] (N : ℕ) (hN : 0 < N) (F : ℕ → M) :
    ∑ a ∈ Finset.range N, F (bfun N a) = ∑ a ∈ Finset.range N, F a :=
  Finset.sum_nbij' (bfun N) (bfun N)
    (fun a _ => Finset.mem_range.mpr (bfun_lt N a hN))
    (fun a _ => Finset.mem_range.mpr (bfun_lt N a hN))
    (fun a ha => bfun_invol N a (Finset.mem_range.mp ha))
    (fun a ha => bfun_invol N a (Finset.mem_range.mp ha))
    (fun _ _ => rfl)

/-- Term-level reflection identity for the zero-shift DFT sum. -/
theorem dft2_term_reflect (k : ℝ) (npx nholes : ℕ) (R d : ℝ) (hev : Even nholes)
    (p q : ℤ) (a b : ℕ) (ha : a < npx) (hb : b < npx) :
    field k 0 0 npx nholes R d a b * omegaN npx ^ (-p * (a : ℤ) + -q * (b : ℤ))
      = omegaN npx ^ (-(p + q) * (2 * (((npx + 1) / 2 : ℕ) : ℤ) - 2))
        * (field k 0 0 npx nholes R d ((bfun npx a : ℕ) : ℤ) ((bfun npx b : ℕ) : ℤ)
            * omegaN npx ^ (p * ((bfun npx a : ℕ) : ℤ) + q * ((bfun npx b : ℕ) : ℤ))) := by
  simp only [field_zero_shift]
  rw [mask_bfun k npx nholes R d hev a b ha hb]
  have hda := bfun_int_congr npx a ha
  have hdb := bfun_int_congr npx b hb
  have hcong : omegaN npx ^ (-p * (a : ℤ) + -q * (b : ℤ))
      = omegaN npx ^ (-(p + q) * (2 * (((npx + 1) / 2 : ℕ) : ℤ) - 2)
          + (p * ((bfun npx a : ℕ) : ℤ) + q * ((bfun npx b : ℕ) : ℤ))) := by
    apply omegaN_zpow_congr
    rw [show (-p * (a : ℤ) + -q * (b : ℤ))
          - (-(p + q) * (2 * (((npx + 1) / 2 : ℕ) : ℤ) - 2)
              + (p * ((bfun npx a : ℕ) : ℤ) + q * ((bfun npx b : ℕ) : ℤ)))
        = -(p * (((bfun npx a : ℕ) : ℤ) - (2 * (((npx + 1) / 2 : ℕ) : ℤ) - 2 - a))
            + q * (((bfun npx b : ℕ) : ℤ) - (2 * (((npx + 1) / 2 : ℕ) : ℤ) - 2 - b))) by ring]
    exact dvd_neg.mpr (dvd_add (hda.mul_left p) (hdb.mul_left q))
  rw [hcong, zpow_add₀ (omegaN_ne_zero npx)]
  ring

/-- The zero-shift DFT magnitudes are invariant under joint negation of the
frequency bins, for an even number of pinholes. -/
theorem dft2_neg (k : ℝ) (npx nholes : ℕ) (R d : ℝ) (hev : Even nholes) (p q : ℤ) :
    Complex.abs (dft2 k 0 0 npx nholes R d (-p) (-q))
      = Complex.abs (dft2 k 0 0 npx nholes R d p q) := by
  rcases Nat.eq_zero_or_pos npx with h0 | hN
  · subst h0
    simp [dft2]
  have key : dft2 k 0 0 npx nholes R d (-p) (-q)
      = omegaN npx ^ (-(p + q) * (2 * (((npx + 1) / 2 : ℕ) : ℤ) - 2))
        * dft2 k 0 0 npx nholes R d p q := by
    unfold dft2
    rw [Finset.mul_sum]
    refine Finset.sum_nbij' (bfun npx) (bfun npx)
      (fun a _ => Finset.mem_range.mpr (bfun_lt npx a hN))
      (fun a _ => Finset.mem_range.mpr (bfun_lt npx a hN))
      (fun a ha => bfun_invol npx a (Finset.mem_range.mp ha))
      (fun a ha => bfun_invol npx a (Finset.mem_range.mp ha))
      (fun a ha => ?_)
    rw [Finset.mul_sum]
    refine Finset.sum_nbij' (bfun npx) (bfun npx)
      (fun b _ => Finset.mem_range.mpr (bfun_lt npx b hN))
      (fun b _ => Finset.mem_range.mpr (bfun_lt npx b hN))
      (fun b hb => bfun_invol npx b (Finset.mem_range.mp hb))
      (fun b hb => bfun_invol npx b (Finset.mem_range.mp hb))
      (fun b hb => ?_)
    exact dft2_term_reflect k npx nholes R d hev p q a b
      (Finset.mem_range.mp ha) (Finset.mem_range.mp hb)
  rw [key, map_mul, abs_omegaN_zpow, one_mul]

/-- The 180°-rotation index map on the output grid: reflection through the
centered zero-frequency bin `npx / 2`, taken cyclically. -/
def reflIdx (npx : ℕ) (a : Fin npx) : Fin npx :=
  ⟨(2 * (npx / 2) - a.val) % npx, Nat.mod_lt _ a.pos⟩

/-- Modulo `npx`, the reflected output index is `2·(npx/2) - a`. -/
theorem reflIdx_int_congr (npx : ℕ) (a : Fin npx) :
    (npx : ℤ) ∣ (((reflIdx npx a).val : ℕ) : ℤ) - (2 * ((npx / 2 : ℕ) : ℤ) - a.val) := by
  have ha : a.val < npx := a.isLt
  have hval : ((2 * (npx / 2) - a.val : ℕ) : ℤ) = 2 * ((npx / 2 : ℕ) : ℤ) - a.val := by omega
  have hcast : (((reflIdx npx a).val : ℕ) : ℤ)
      = (2 * ((npx / 2 : ℕ) : ℤ) - a.val) % (npx : ℤ) := by
    show (((2 * (npx / 2) - a.val) % npx : ℕ) : ℤ) = _
    rw [← hval]
    exact Int.natCast_mod _ npx
  rw [hcast]
  have h1 : (2 * ((npx / 2 : ℕ) : ℤ) - a.val) % (npx : ℤ)
      ≡ 2 * ((npx / 2 : ℕ) : ℤ) - a.val [ZMOD (npx : ℤ)] :=
    Int.emod_emod_of_dvd _ dvd_rfl
  exact Int.ModEq.dvd h1.symm

/-- C4, amended.  With zero shift and an even number of pinholes the
intensity grid is symmetric under 180° rotation about the centered
zero-frequency bin: the value at `(a, b)` equals the value at the cyclic
reflection `((2·(npx/2) - a) mod npx, (2·(npx/2) - b) mod npx)`.  (For odd
`nholes` the pinhole arrangement is not point-symmetric and the claimed
symmetry fails; see the counterexample.) -/
theorem pindr_rotation_symmetric (k R d : ℝ) (npx nholes : ℕ) (hev : Even nholes)
    (a b : Fin npx) :
    pindr k 0 0 npx nholes R d a b
      = pindr k 0 0 npx nholes R d (reflIdx npx a) (reflIdx npx b) := by
  unfold pindr fftshift2
  have hcong : ∀ x : Fin npx,
      (npx : ℤ) ∣ ((((reflIdx npx x).val : ℤ) - ((npx / 2 : ℕ) : ℤ)) % (npx : ℤ))
        - (-(((x.val : ℤ) - ((npx / 2 : ℕ) : ℤ)) % (npx : ℤ))) := by
    intro x
    have hr := reflIdx_int_congr npx x
    have m1 : (((reflIdx npx x).val : ℤ) - ((npx / 2 : ℕ) : ℤ)) % (npx : ℤ)
        ≡ ((reflIdx npx x).val : ℤ) - ((npx / 2 : ℕ) : ℤ) [ZMOD (npx : ℤ)] :=
      Int.emod_emod_of_dvd _ dvd_rfl
    have m2 : ((x.val : ℤ) - ((npx / 2 : ℕ) : ℤ)) % (npx : ℤ)
        ≡ (x.val : ℤ) - ((npx / 2 : ℕ) : ℤ) [ZMOD (npx : ℤ)] :=
      Int.emod_emod_of_dvd _ dvd_rfl
    have m3 : ((reflIdx npx x).val : ℤ)
        ≡ 2 * ((npx / 2 : ℕ) : ℤ) - x.val [ZMOD (npx : ℤ)] := by
      rw [Int.modEq_iff_dvd]
      exact dvd_sub_comm.mp hr
    have m4 := (m3.sub_right ((npx / 2 : ℕ) : ℤ)).add_right
      ((x.val : ℤ) - ((npx / 2 : ℕ) : ℤ))
    have msum := (m1.add m2).trans m4
    have hzero : (2 * ((npx / 2 : ℕ) : ℤ) - x.val - ((npx / 2 : ℕ) : ℤ))
        + ((x.val : ℤ) - ((npx / 2 : ℕ) : ℤ)) = 0 := by ring
    rw [hzero] at msum
    have hdvd := Int.modEq_zero_iff_dvd.mp msum
    rw [sub_neg_eq_add]
    exact hdvd
  have h1 : dft2 k 0 0 npx nholes R d
        ((((reflIdx npx a).val : ℤ) - ((npx / 2 : ℕ) : ℤ)) % (npx : ℤ))
        ((((reflIdx npx b).val : ℤ) - ((npx / 2 : ℕ) : ℤ)) % (npx : ℤ))
      = dft2 k 0 0 npx nholes R d
        (-(((a.val : ℤ) - ((npx / 2 : ℕ) : ℤ)) % (npx : ℤ)))
        (-(((b.val : ℤ) - ((npx / 2 : ℕ) : ℤ)) % (npx : ℤ))) :=
    dft2_congr k 0 0 npx nholes R d _ _ _ _ (hcong a) (hcong b)
  rw [h1]
  exact (dft2_neg k npx nholes R d hev
    (((a.val : ℤ) - ((npx / 2 : ℕ) : ℤ)) % (npx : ℤ))
    (((b.val : ℤ) - ((npx / 2 : ℕ) : ℤ)) % (npx : ℤ))).symm

/-- C4 amended, witness. -/
theorem pindr_rotation_symmetric_witness :
    pindr 1 0 0 1 2 1 1 0 0 = pindr 1 0 0 1 2 1 1 (reflIdx 1 0) (reflIdx 1 0) :=
  pindr_rotation_symmetric 1 1 1 1 2 ⟨1, rfl⟩ 0 0

/-- Radial distances for the counterexample input collapse to rationals. -/
theorem cex_rdist (x y w : ℝ) (hw : 0 ≤ w)
    (h : (x - 319 / 288) ^ 2 + y ^ 2 + 45695 / 82944 = w ^ 2) :
    rdist 1 (319 / 288) (Real.sqrt (45695 / 82944)) 0 x y = w := by
  unfold rdist holeX holeY holeT
  have h0 : ((0 : ℕ) : ℝ) * (2 * Real.pi) / ((1 : ℕ) : ℝ) = 0 := by norm_num
  rw [h0, Real.cos_zero, Real.sin_zero]
  have hd : Real.sqrt (45695 / 82944) ^ 2 = (45695 / 82944 : ℝ) :=
    Real.sq_sqrt (by norm_num)
  rw [hd]
  rw [show (x - 319 / 288 * 1) ^ 2 + (y - 319 / 288 * 0) ^ 2 + (45695 / 82944 : ℝ) = w ^ 2 by
    rw [← h]; ring]
  exact Real.sqrt_sq hw

/-- Mask entry for the counterexample input, in terms of the collapsed
radial distance and the evaluated complex exponential. -/
theorem cex_mask_entry (x y w : ℝ) (e : ℂ) (hw : 0 < w)
    (h : (x - 319 / 288) ^ 2 + y ^ 2 + 45695 / 82944 = w ^ 2)
    (he : Complex.exp (Complex.I * ((12 * Real.pi : ℝ) : ℂ) * ((w : ℝ) : ℂ)) = e) :
    maskC (12 * Real.pi) 1 (319 / 288) (Real.sqrt (45695 / 82944)) x y
      = -6 * Complex.I * e / ((w : ℝ) : ℂ) := by
  unfold maskC
  rw [show List.range 1 = [0] from rfl]
  simp only [List.foldl_cons, List.foldl_nil, zero_add]
  unfold wavelet
  rw [cex_rdist x y w (le_of_lt hw) h, he]
  unfold lam
  rw [show 2 * Real.pi / (12 * Real.pi) = 1 / 6 by
    have hpi := Real.pi_ne_zero
    field_simp
    ring]
  push_cast
  ring

theorem cex_exp_one_a :
    Complex.exp (Complex.I * ((12 * Real.pi : ℝ) : ℂ) * (((4 / 3 : ℝ) : ℝ) : ℂ)) = 1 := by
  rw [show Complex.I * ((12 * Real.pi : ℝ) : ℂ) * (((4 / 3 : ℝ) : ℝ) : ℂ)
      = ((8 : ℤ) : ℂ) * (2 * (Real.pi : ℂ) * Complex.I) by push_cast; ring]
  exact Complex.exp_int_mul_two_pi_mul_I 8

theorem cex_exp_one_b :
    Complex.exp (Complex.I * ((12 * Real.pi : ℝ) : ℂ) * (((5 / 3 : ℝ) : ℝ) : ℂ)) = 1 := by
  rw [show Complex.I * ((12 * Real.pi : ℝ) : ℂ) * (((5 / 3 : ℝ) : ℝ) : ℂ)
      = ((10 : ℤ) : ℂ) * (2 * (Real.pi : ℂ) * Complex.I) by push_cast; ring]
  exact Complex.exp_int_mul_two_pi_mul_I 10

theorem cex_exp_neg_one_a :
    Complex.exp (Complex.I * ((12 * Real.pi : ℝ) : ℂ) * (((3 / 4 : ℝ) : ℝ) : ℂ)) = -1 := by
  rw [show Complex.I * ((12 * Real.pi : ℝ) : ℂ) * (((3 / 4 : ℝ) : ℝ) : ℂ)
      = (Real.pi : ℂ) * Complex.I + ((4 : ℤ) : ℂ) * (2 * (Real.pi : ℂ) * Complex.I) by
    push_cast; ring]
  rw [Complex.exp_add, Complex.exp_int_mul_two_pi_mul_I, Complex.exp_pi_mul_I]
  norm_num

theorem cex_exp_neg_one_b :
    Complex.exp (Complex.I * ((12 * Real.pi : ℝ) : ℂ) * (((5 / 4 : ℝ) : ℝ) : ℂ)) = -1 := by
  rw [show Complex.I * ((12 * Real.pi : ℝ) : ℂ) * (((5 / 4 : ℝ) : ℝ) : ℂ)
      = (Real.pi : ℂ) * Complex.I + ((7 : ℤ) : ℂ) * (2 * (Real.pi : ℂ) * Complex.I) by
    push_cast; ring]
  rw [Complex.exp_add, Complex.exp_int_mul_two_pi_mul_I, Complex.exp_pi_mul_I]
  norm_num

/-- The four mask entries of the counterexample grid. -/
theorem cex_mask_00 :
    mask (12 * Real.pi) 2 1 (319 / 288) (Real.sqrt (45695 / 82944)) 0 0
      = -6 * Complex.I * 1 / (((4 / 3 : ℝ) : ℝ) : ℂ) := by
  unfold mask
  rw [show gridX 2 0 = 0 from rfl, show gridY 2 0 = 0 from rfl]
  rw [show ((0 : ℤ) : ℝ) = (0 : ℝ) by norm_num]
  exact cex_mask_entry 0 0 (4 / 3) 1 (by norm_num) (by norm_num) cex_exp_one_a

theorem cex_mask_01 :
    mask (12 * Real.pi) 2 1 (319 / 288) (Real.sqrt (45695 / 82944)) 0 1
      = -6 * Complex.I * 1 / (((5 / 3 : ℝ) : ℝ) : ℂ) := by
  unfold mask
  rw [show gridX 2 0 = 0 from rfl, show gridY 2 1 = -1 from rfl]
  rw [show ((0 : ℤ) : ℝ) = (0 : ℝ) by norm_num, show ((-1 : ℤ) : ℝ) = (-1 : ℝ) by norm_num]
  exact cex_mask_entry 0 (-1) (5 / 3) 1 (by norm_num) (by norm_num) cex_exp_one_b

theorem cex_mask_10 :
    mask (12 * Real.pi) 2 1 (319 / 288) (Real.sqrt (45695 / 82944)) 1 0
      = -6 * Complex.I * (-1) / (((3 / 4 : ℝ) : ℝ) : ℂ) := by
  unfold mask
  rw [show gridX 2 1 = 1 from rfl, show gridY 2 0 = 0 from rfl]
  rw [show ((1 : ℤ) : ℝ) = (1 : ℝ) by norm_num, show ((0 : ℤ) : ℝ) = (0 : ℝ) by norm_num]
  exact cex_mask_entry 1 0 (3 / 4) (-1) (by norm_num) (by norm_num) cex_exp_neg_one_a

theorem cex_mask_11 :
    mask (12 * Real.pi) 2 1 (319 / 288) (Real.sqrt (45695 / 82944)) 1 1
      = -6 * Complex.I * (-1) / (((5 / 4 : ℝ) : ℝ) : ℂ) := by
  unfold mask
  rw [show gridX 2 1 = 1 from rfl, show gridY 2 1 = -1 from rfl]
  rw [show ((1 : ℤ) : ℝ) = (1 : ℝ) by norm_num, show ((-1 : ℤ) : ℝ) = (-1 : ℝ) by norm_num]
  exact cex_mask_entry 1 (-1) (5 / 4) (-1) (by norm_num) (by norm_num) cex_exp_neg_one_b

/-- The DFT root of unity for a 2-sample axis is `-1`. -/
theorem omegaN_two : omegaN 2 = -1 := by
  unfold omegaN
  rw [show -(2 * (Real.pi : ℂ) * Complex.I) / ((2 : ℕ) : ℂ)
      = -((Real.pi : ℂ) * Complex.I) by push_cast; ring]
  rw [Complex.exp_neg, Complex.exp_pi_mul_I]
  norm_num

/-- The DC-adjacent transform value of the counterexample grid. -/
theorem cex_dft2_11 :
    dft2 (12 * Real.pi) 0 0 2 1 (319 / 288) (Real.sqrt (45695 / 82944)) 1 1
      = ((-41 / 10 : ℝ) : ℂ) * Complex.I := by
  unfold dft2
  simp only [Finset.sum_range_succ, Finset.sum_range_one]
  simp only [field_zero_shift, Nat.cast_zero, Nat.cast_one]
  rw [cex_mask_00, cex_mask_01, cex_mask_10, cex_mask_11, omegaN_two]
  push_cast
  norm_num
  ring

/-- The DC transform value of the counterexample grid. -/
theorem cex_dft2_00 :
    dft2 (12 * Real.pi) 0 0 2 1 (319 / 288) (Real.sqrt (45695 / 82944)) 0 0
      = ((47 / 10 : ℝ) : ℂ) * Complex.I := by
  unfold dft2
  simp only [Finset.sum_range_succ, Finset.sum_range_one]
  simp only [field_zero_shift, Nat.cast_zero, Nat.cast_one]
  rw [cex_mask_00, cex_mask_01, cex_mask_10, cex_mask_11, omegaN_two]
  push_cast
  norm_num
  ring

/-- C4, counterexample.  At the valid input `k = 12π > 0`, `u = v = 0`,
`npx = 2`, `nholes = 1`, `R = 319/288 ≥ 0`, `d = √(45695/82944)`, the
intensity at grid index `(0, 0)` is `41/10` while at the index `(1, 1)` —
its reflection through the center of the 2×2 grid — it is `47/10`, so the
grid is not symmetric under 180° rotation about the grid center. -/
theorem pindr_not_rotation_symmetric :
    pindr (12 * Real.pi) 0 0 2 1 (319 / 288) (Real.sqrt (45695 / 82944)) 0 0
      ≠ pindr (12 * Real.pi) 0 0 2 1 (319 / 288) (Real.sqrt (45695 / 82944)) 1 1 := by
  unfold pindr fftshift2
  have i00 : (((0 : Fin 2).val : ℤ) - ((2 / 2 : ℕ) : ℤ)) % ((2 : ℕ) : ℤ) = 1 := by decide
  have i11 : (((1 : Fin 2).val : ℤ) - ((2 / 2 : ℕ) : ℤ)) % ((2 : ℕ) : ℤ) = 0 := by decide
  rw [i00, i11, cex_dft2_11, cex_dft2_00]
  rw [map_mul, map_mul, Complex.abs_ofReal, Complex.abs_ofReal, Complex.abs_I,
    mul_one, mul_one]
  norm_num
  rw [abs_of_pos (show (0 : ℝ) < 41 / 10 by norm_num),
    abs_of_pos (show (0 : ℝ) < 47 / 10 by norm_num)]
  norm_num

end Diffhole
